import Mathlib

/-!
Verification of the restruc repository (C++ struct-recovery tool) against its
natural-language specification.

The development shallowly embeds the relevant parts of the source:

* the Struc field model (struc.cxx): field insertion with alias rules,
  duplicate detection, the covered-offset set, size computation and merging;
* the context store of Recontex (recontex.cxx): hash-ordered emplacement of
  contexts into the per-flo multimap;
* the context / register-file / memory model (contexts.cxx, with the
  register-file and memory chaining modelled from the specification where the
  corresponding headers are not part of the sources);
* instruction emulation for CALL and for XOR with identical register
  operands (recontex.cxx);
* the optimal-coverage node and path construction (recontex.cxx);
* jump classification of the control-flow reconstructor (restruc.hxx, old
  CFGraph variant);
* the PE machine-type check and the exit-code discipline of wmain
  (pe.cxx part of struc.cxx, main.cxx).

Machine integers are modelled as Nat with explicit reductions mod 2^64 where
overflow matters; C++ pointers used as addresses are Nat with 0 standing for
the null pointer.
-/

namespace Rstc

/-! ## Struc model (struc.cxx) -/

/-- Field type enumerator of Struc::Field. The numeric order UInt, Int,
Float, Pointer, Struc is the declaration order used by the comparison
field.type() <= current_field.type() in Struc::is_duplicate (the header
struc.hxx is not among the sources; the order is the one the specification
lists and the switch in is_duplicate follows). -/
inductive FieldType
| uint
| int
| float
| pointer
| struc
deriving DecidableEq, Repr

/-- Numeric value of the Field::Type enumerator, used by the type-priority
comparison in Struc::is_duplicate. -/
def FieldType.prio : FieldType → Nat
| .uint => 0
| .int => 1
| .float => 2
| .pointer => 3
| .struc => 4

/-- Struc::Field: type, size in bytes, array count, and whether the
referenced-struc pointer struc_ is non-null. -/
structure Field where
  type : FieldType
  size : Nat
  count : Nat
  hasStruc : Bool
deriving DecidableEq, Repr

/-- Struc::Field::is_pointer_alias: 8-byte Int, UInt or Pointer
(the size argument is ignored by the source). -/
def Field.is_pointer_alias (f : Field) (_sz : Nat) : Bool :=
  f.size == 8 && (f.type == .int || f.type == .uint || f.type == .pointer)

/-- Struc::Field::is_float_alias: same size and Int, UInt or Float. -/
def Field.is_float_alias (f : Field) (sz : Nat) : Bool :=
  if f.size != sz then false
  else f.type == .int || f.type == .uint || f.type == .float

/-- Struc::Field::is_typed_int_alias: same size and Int, UInt, Float or
Pointer. -/
def Field.is_typed_int_alias (f : Field) (sz : Nat) : Bool :=
  if f.size != sz then false
  else f.type == .int || f.type == .uint || f.type == .float
    || f.type == .pointer

/-- Field::Signedness. -/
inductive Signedness
| unsigned
| signed
deriving DecidableEq, Repr

/-- State of a Struc: the ordered multimap fields_ (offset to Field, kept
sorted by offset, represented as a list in map order) and the offset set
field_set_ (std::set, represented as a duplicate-free list; only membership
matters). The name is omitted: no claim mentions it. -/
structure Struc where
  fields : List (Nat × Field)
  field_set : List Nat
deriving DecidableEq, Repr

/-- A Struc with no fields. -/
def Struc.empty : Struc := ⟨[], []⟩

/-- std::multimap emplace: insert at the upper bound of the key, i.e. after
every entry whose key is less than or equal to the new key. -/
def mmEmplace : List (Nat × Field) → Nat → Field → List (Nat × Field)
| [], o, f => [(o, f)]
| p :: rest, o, f =>
  if p.1 ≤ o then p :: mmEmplace rest o f else (o, f) :: p :: rest

/-- std::set insert: add the element unless already present. -/
def setInsert (s : List Nat) (x : Nat) : List Nat :=
  if x ∈ s then s else x :: s

/-- The body of the reverse-iterator scan of Struc::is_duplicate, run over
the entries with offset at most the new offset, in decreasing offset order
(which is what reverse iteration from upper_bound(offset) yields on the
sorted multimap). The first entry whose end does not reach past offset
breaks the loop. -/
def dupScan (offset : Nat) (fld : Field) : List (Nat × Field) → Bool
| [] => false
| (co, cf) :: rest =>
  if co + cf.count * cf.size ≤ offset then false
  else if cf.size != fld.size then dupScan offset fld rest
  else if co % fld.size != offset % fld.size then dupScan offset fld rest
  else
    match cf.type with
    | .uint | .int =>
      if fld.is_typed_int_alias cf.size && fld.type.prio ≤ cf.type.prio then
        true
      else dupScan offset fld rest
    | .float =>
      if fld.is_float_alias cf.size && fld.type.prio ≤ cf.type.prio then
        true
      else dupScan offset fld rest
    | .pointer =>
      if fld.is_pointer_alias cf.size && fld.type.prio ≤ cf.type.prio then
        true
      else dupScan offset fld rest
    | .struc =>
      if fld.type == cf.type then true else dupScan offset fld rest

/-- Struc::is_duplicate. -/
def Struc.is_duplicate (s : Struc) (offset : Nat) (fld : Field) : Bool :=
  if s.fields.isEmpty then false
  else dupScan offset fld ((s.fields.filter (fun p => p.1 ≤ offset)).reverse)

/-- Struc::has_aliases: some field stored at exactly the offset satisfies the
alias check. -/
def Struc.has_aliases (s : Struc) (offset : Nat)
    (check : Field → Nat → Bool) (sz : Nat) : Bool :=
  (s.fields.filter (fun p => p.1 == offset)).any (fun p => check p.2 sz)

/-- Struc::remove_aliases: erase every field at exactly the offset satisfying
the alias check; return the maximum of 1 and the counts of all fields at the
offset (removed or not) together with the remaining fields. -/
def Struc.remove_aliases (s : Struc) (offset : Nat)
    (check : Field → Nat → Bool) (sz : Nat) : Nat × List (Nat × Field) :=
  let ats := s.fields.filter (fun p => p.1 == offset)
  let cnt := ats.foldl (fun acc p => max acc p.2.count) 1
  (cnt, s.fields.filter (fun p => !(p.1 == offset && check p.2 sz)))

/-- Struc::add_field: no-op on a duplicate, otherwise record every covered
offset in field_set_ and emplace the field. -/
def Struc.add_field (s : Struc) (offset : Nat) (fld : Field) : Struc :=
  if s.is_duplicate offset fld then s
  else
    { fields := mmEmplace s.fields offset fld,
      field_set := (List.range fld.count).foldl
        (fun fs i => setInsert fs (offset + i * fld.size)) s.field_set }

/-- Struc::add_int_field. -/
def Struc.add_int_field (s : Struc) (offset sz : Nat) (sg : Signedness)
    (count : Nat) : Struc :=
  if s.has_aliases offset Field.is_typed_int_alias sz then s
  else
    s.add_field offset
      ⟨(match sg with | .unsigned => .uint | .signed => .int), sz, count,
        false⟩

/-- Struc::add_float_field. -/
def Struc.add_float_field (s : Struc) (offset sz count : Nat) : Struc :=
  let r := s.remove_aliases offset Field.is_float_alias sz
  Struc.add_field ⟨r.2, s.field_set⟩ offset
    ⟨.float, sz, max r.1 count, false⟩

/-- Struc::add_pointer_field. -/
def Struc.add_pointer_field (s : Struc) (offset count : Nat)
    (hasStruc : Bool) : Struc :=
  let r := s.remove_aliases offset Field.is_pointer_alias 8
  Struc.add_field ⟨r.2, s.field_set⟩ offset
    ⟨.pointer, 8, max r.1 count, hasStruc⟩

/-- Struc::add_struc_field: a Struc-typed field of size 0. -/
def Struc.add_struc_field (s : Struc) (offset count : Nat) : Struc :=
  s.add_field offset ⟨.struc, 0, count, true⟩

/-- Struc::has_field_at_offset. -/
def Struc.has_field_at_offset (s : Struc) (offset : Nat) : Bool :=
  offset ∈ s.field_set

/-- Struc::merge_fields. -/
def Struc.merge_fields (s : Struc) (offset : Nat) (fld : Field) : Struc :=
  if !(s.has_field_at_offset offset) then s.add_field offset fld
  else if s.is_duplicate offset fld then s
  else if fld.type == .pointer && fld.hasStruc then
    s.add_pointer_field offset 1 fld.hasStruc
  else if fld.type == .float then s.add_float_field offset fld.size fld.count
  else s.add_field offset fld

/-- The reverse scan of Struc::try_merge_struc_field_at_offset, over entries
with offset at most the source offset in decreasing order; it reports whether
some destination pointer-to-struct field overlapped with matching 8-byte
alignment (the actual merge mutates the referenced struct, not this one). -/
def tryMergeScan (offset : Nat) : List (Nat × Field) → Bool → Bool
| [], m => m
| (co, cf) :: rest, m =>
  if co + cf.count * cf.size ≤ offset then m
  else if cf.type == .pointer && cf.hasStruc && co % 8 == offset % 8 then
    tryMergeScan offset rest true
  else tryMergeScan offset rest m

/-- Struc::try_merge_struc_field_at_offset, restricted to its effect on this
struct (none) and its return value. -/
def Struc.try_merge_struc_field_at_offset (s : Struc) (offset : Nat)
    (fld : Field) : Bool :=
  if fld.type != .pointer || !fld.hasStruc then false
  else
    tryMergeScan offset ((s.fields.filter (fun p => p.1 ≤ offset)).reverse)
      false

/-- Struc::merge, as it acts on the destination struct: every source field
either merges into a referenced struct (leaving this struct unchanged) or
goes through merge_fields. -/
def Struc.merge (s : Struc) (src : List (Nat × Field)) : Struc :=
  src.foldl
    (fun acc p =>
      if acc.try_merge_struc_field_at_offset p.1 p.2 then acc
      else acc.merge_fields p.1 p.2)
    s

/-- Struc::get_size: 0 when empty, otherwise the largest starting offset
plus the largest size among fields stored at that offset. -/
def Struc.get_size (s : Struc) : Nat :=
  match s.fields.getLast? with
  | none => 0
  | some last =>
    let lastOffset := last.1
    let lastFields := s.fields.filter (fun p => p.1 == lastOffset)
    lastOffset + lastFields.foldl (fun acc p => max acc p.2.size) 0

/-! Claim-side definitions for the Struc model. -/

/-- Offsets covered by one field: offset + k * size for 0 <= k < count. -/
def coveredOffsets (offset : Nat) (f : Field) : List Nat :=
  (List.range f.count).map (fun k => offset + k * f.size)

/-- Union over all stored fields of their covered offsets. -/
def strucCovered : List (Nat × Field) → List Nat
| [] => []
| p :: rest => coveredOffsets p.1 p.2 ++ strucCovered rest

/-- The size the specification claims for get_size: the maximum over the
fields stored at the largest starting offset of offset + size * count. -/
def specClaimSize (s : Struc) : Nat :=
  match s.fields.getLast? with
  | none => 0
  | some last =>
    ((s.fields.filter (fun p => p.1 == last.1)).map
      (fun p => last.1 + p.2.size * p.2.count)).foldl max 0

/-- The amended size: the maximum over the fields stored at the largest
starting offset of offset + size (the array count is ignored). -/
def amendedSize (s : Struc) : Nat :=
  match s.fields.getLast? with
  | none => 0
  | some last =>
    ((s.fields.filter (fun p => p.1 == last.1)).map
      (fun p => last.1 + p.2.size)).foldl max 0

/-- Public mutation operations of Struc, used to quantify over the states a
Struc can reach. A merge is recorded by the field list of the source struct
(the recursive pointee merge of try_merge_struc_field_at_offset mutates only
the referenced struct, never this one). -/
inductive StrucOp
| addInt (offset sz : Nat) (sg : Signedness) (count : Nat)
| addFloat (offset sz count : Nat)
| addPointer (offset count : Nat) (hasStruc : Bool)
| addStruc (offset count : Nat)
| mergeFrom (src : List (Nat × Field))
deriving Repr

/-- Apply one public operation. -/
def StrucOp.apply (s : Struc) : StrucOp → Struc
| .addInt offset sz sg count => s.add_int_field offset sz sg count
| .addFloat offset sz count => s.add_float_field offset sz count
| .addPointer offset count hasStruc => s.add_pointer_field offset count hasStruc
| .addStruc offset count => s.add_struc_field offset count
| .mergeFrom src => s.merge src

/-- Apply a sequence of public operations to the empty Struc. -/
def applyOps (ops : List StrucOp) : Struc :=
  ops.foldl StrucOp.apply Struc.empty

/-! Helper lemmas for the Struc model. -/

theorem mem_mmEmplace {l : List (Nat × Field)} {o : Nat} {f : Field}
    {p : Nat × Field} : p ∈ mmEmplace l o f ↔ p ∈ l ∨ p = (o, f) := by
  induction l with
  | nil => simp [mmEmplace]
  | cons q rest ih =>
    by_cases h : q.1 ≤ o
    · simp [mmEmplace, h, ih]
      tauto
    · simp [mmEmplace, h]
      tauto

theorem mem_setInsert {s : List Nat} {x y : Nat} :
    y ∈ setInsert s x ↔ y ∈ s ∨ y = x := by
  by_cases h : x ∈ s
  · simp [setInsert, h]
    rintro rfl
    exact h
  · simp [setInsert, h, or_comm]

theorem mem_foldl_setInsert {g : Nat → Nat} {x : Nat} :
    ∀ {l : List Nat} {fs : List Nat},
      (x ∈ l.foldl (fun fs i => setInsert fs (g i)) fs ↔
        x ∈ fs ∨ x ∈ l.map g)
| [], fs => by simp
| a :: rest, fs => by
  rw [List.foldl_cons, List.map_cons, mem_foldl_setInsert, mem_setInsert]
  simp
  tauto

theorem mem_strucCovered {x : Nat} :
    ∀ {l : List (Nat × Field)},
      (x ∈ strucCovered l ↔ ∃ p ∈ l, x ∈ coveredOffsets p.1 p.2)
| [] => by simp [strucCovered]
| p :: rest => by
  simp only [strucCovered, List.mem_append, mem_strucCovered, List.mem_cons]
  constructor
  · rintro (h | ⟨q, hq, hx⟩)
    · exact ⟨p, Or.inl rfl, h⟩
    · exact ⟨q, Or.inr hq, hx⟩
  · rintro ⟨q, (rfl | hq), hx⟩
    · exact Or.inl hx
    · exact Or.inr ⟨q, hq, hx⟩

theorem dupScan_false {offset : Nat} {fld : Field} {l : List (Nat × Field)}
    (h : ∀ p ∈ l, p.1 + p.2.count * p.2.size ≤ offset) :
    dupScan offset fld l = false := by
  cases l with
  | nil => rfl
  | cons p rest =>
    have hp := h p (List.mem_cons_self p rest)
    cases p with
    | mk co cf => simp [dupScan, hp]

theorem is_duplicate_false {s : Struc} {offset : Nat} {fld : Field}
    (h : ∀ p ∈ s.fields, p.1 ≤ offset → p.1 + p.2.count * p.2.size ≤ offset) :
    s.is_duplicate offset fld = false := by
  unfold Struc.is_duplicate
  by_cases he : s.fields.isEmpty
  · simp [he]
  · simp only [he, if_false]
    apply dupScan_false
    intro p hp
    rw [List.mem_reverse, List.mem_filter] at hp
    exact h p hp.1 (by simpa using hp.2)

theorem init_le_foldl_max :
    ∀ (l : List (Nat × Field)) (init : Nat),
      init ≤ l.foldl (fun acc q => max acc q.2.count) init
| [], _ => le_rfl
| q :: rest, init => by
  rw [List.foldl_cons]
  exact le_trans (le_max_left _ _) (init_le_foldl_max rest _)

theorem count_le_foldl_max :
    ∀ {l : List (Nat × Field)} {p : Nat × Field}, p ∈ l →
      ∀ (init : Nat),
        p.2.count ≤ l.foldl (fun acc q => max acc q.2.count) init := by
  intro l
  induction l with
  | nil => intro p hp; cases hp
  | cons q rest ih =>
    intro p hp init
    rcases List.mem_cons.mp hp with rfl | h
    · rw [List.foldl_cons]
      exact le_trans (le_max_right _ _) (init_le_foldl_max rest _)
    · rw [List.foldl_cons]
      exact ih h _

/-! ### Claim C2 -/

/-- C2 counterexample: for the Struc holding a single unsigned 4-byte field
of count 2 at offset 0 (reached by one add_int_field call), get_size returns
4, not the claimed maximum of offset + size * count = 8. -/
theorem claim_C2_counterexample :
    Struc.get_size (Struc.empty.add_int_field 0 4 .unsigned 2) = 4 ∧
    specClaimSize (Struc.empty.add_int_field 0 4 .unsigned 2) = 8 ∧
    Struc.get_size (Struc.empty.add_int_field 0 4 .unsigned 2) ≠
      specClaimSize (Struc.empty.add_int_field 0 4 .unsigned 2) := by
  refine ⟨by decide, by decide, by decide⟩

theorem foldl_max_size_add (lo : Nat) :
    ∀ (l : List (Nat × Field)) (b : Nat),
      l.foldl (fun acc p => max acc (lo + p.2.size)) (lo + b) =
        lo + l.foldl (fun acc p => max acc p.2.size) b
| [], b => by simp
| q :: rest, b => by
  rw [List.foldl_cons, List.foldl_cons,
    show max (lo + b) (lo + q.2.size) = lo + max b q.2.size by omega,
    foldl_max_size_add lo rest (max b q.2.size)]

theorem foldl_max_size_add_of_ne_nil (lo : Nat) (l : List (Nat × Field))
    (h : l ≠ []) :
    l.foldl (fun acc p => max acc (lo + p.2.size)) 0 =
      lo + l.foldl (fun acc p => max acc p.2.size) 0 := by
  cases l with
  | nil => exact absurd rfl h
  | cons q rest =>
    rw [List.foldl_cons, List.foldl_cons,
      show max 0 (lo + q.2.size) = lo + max 0 q.2.size by omega,
      foldl_max_size_add lo rest (max 0 q.2.size)]

/-- C2 (amended): for every Struc with at least one field, get_size equals
the maximum, over the fields stored at the largest starting offset, of
offset + size; the array count is ignored. -/
theorem claim_C2_amended (s : Struc) (h : s.fields ≠ []) :
    s.get_size = amendedSize s := by
  cases hlast : s.fields.getLast? with
  | none => exact absurd (List.getLast?_eq_none_iff.mp hlast) h
  | some last =>
    have hmem : last ∈ s.fields.filter (fun p => p.1 == last.1) := by
      rw [List.mem_filter]
      exact ⟨List.mem_of_mem_getLast? hlast, by simp⟩
    have hne : s.fields.filter (fun p => p.1 == last.1) ≠ [] :=
      List.ne_nil_of_mem hmem
    unfold Struc.get_size amendedSize
    rw [hlast]
    dsimp only
    rw [List.foldl_map, foldl_max_size_add_of_ne_nil _ _ hne]

/-- C2 witness: the amended statement applied to a concrete one-field
Struc. -/
theorem claim_C2_witness :
    (Struc.empty.add_int_field 0 4 .unsigned 2).fields ≠ [] ∧
      Struc.get_size (Struc.empty.add_int_field 0 4 .unsigned 2) =
        amendedSize (Struc.empty.add_int_field 0 4 .unsigned 2) :=
  ⟨by decide, claim_C2_amended _ (by decide)⟩

/-! ### Claim C5 -/

/-- The field_set invariant as the specification states it, weakened to the
superset direction: every covered offset appears in field_set. -/
def StrucInv (s : Struc) : Prop :=
  ∀ x ∈ strucCovered s.fields, x ∈ s.field_set

theorem strucInv_add_field {s : Struc} (h : StrucInv s) (o : Nat) (f : Field) :
    StrucInv (s.add_field o f) := by
  unfold Struc.add_field
  by_cases hd : s.is_duplicate o f = true
  · simpa [hd] using h
  · rw [if_neg hd]
    intro x hx
    rw [mem_strucCovered] at hx
    obtain ⟨p, hp, hxp⟩ := hx
    rw [mem_foldl_setInsert]
    rcases mem_mmEmplace.mp hp with hmem | rfl
    · exact Or.inl (h x (mem_strucCovered.mpr ⟨p, hmem, hxp⟩))
    · exact Or.inr hxp

theorem strucInv_filter {s : Struc} (h : StrucInv s)
    (q : Nat × Field → Bool) :
    StrucInv ⟨s.fields.filter q, s.field_set⟩ := by
  intro x hx
  rw [mem_strucCovered] at hx
  obtain ⟨p, hp, hxp⟩ := hx
  exact h x (mem_strucCovered.mpr ⟨p, (List.mem_filter.mp hp).1, hxp⟩)

theorem strucInv_add_int_field {s : Struc} (h : StrucInv s)
    (offset sz : Nat) (sg : Signedness) (count : Nat) :
    StrucInv (s.add_int_field offset sz sg count) := by
  unfold Struc.add_int_field
  by_cases ha : s.has_aliases offset Field.is_typed_int_alias sz
  · simpa [ha] using h
  · simpa [ha] using strucInv_add_field h _ _

theorem strucInv_add_float_field {s : Struc} (h : StrucInv s)
    (offset sz count : Nat) :
    StrucInv (s.add_float_field offset sz count) :=
  strucInv_add_field (strucInv_filter h _) _ _

theorem strucInv_add_pointer_field {s : Struc} (h : StrucInv s)
    (offset count : Nat) (hasStruc : Bool) :
    StrucInv (s.add_pointer_field offset count hasStruc) :=
  strucInv_add_field (strucInv_filter h _) _ _

theorem strucInv_add_struc_field {s : Struc} (h : StrucInv s)
    (offset count : Nat) :
    StrucInv (s.add_struc_field offset count) :=
  strucInv_add_field h _ _

theorem strucInv_merge_fields {s : Struc} (h : StrucInv s)
    (offset : Nat) (fld : Field) :
    StrucInv (s.merge_fields offset fld) := by
  unfold Struc.merge_fields
  by_cases h1 : s.has_field_at_offset offset
  · simp only [h1, Bool.not_true, if_false]
    by_cases h2 : s.is_duplicate offset fld
    · simpa [h2] using h
    · simp only [h2, if_false]
      by_cases h3 : fld.type == FieldType.pointer && fld.hasStruc
      · simpa [h3] using strucInv_add_pointer_field h _ _ _
      · simp only [h3, if_false]
        by_cases h4 : fld.type == FieldType.float
        · simpa [h4] using strucInv_add_float_field h _ _ _
        · simpa [h4] using strucInv_add_field h _ _
  · simpa [h1] using strucInv_add_field h _ _

theorem strucInv_merge {src : List (Nat × Field)} :
    ∀ {s : Struc}, StrucInv s → StrucInv (s.merge src) := by
  induction src with
  | nil => intro s h; exact h
  | cons p rest ih =>
    intro s h
    unfold Struc.merge
    rw [List.foldl_cons]
    by_cases hm : s.try_merge_struc_field_at_offset p.1 p.2
    · simpa [hm] using ih (s := s) h
    · simpa [hm] using ih (s := s.merge_fields p.1 p.2)
        (strucInv_merge_fields h _ _)

theorem strucInv_apply {s : Struc} (h : StrucInv s) (op : StrucOp) :
    StrucInv (op.apply s) := by
  cases op with
  | addInt offset sz sg count => exact strucInv_add_int_field h _ _ _ _
  | addFloat offset sz count => exact strucInv_add_float_field h _ _ _
  | addPointer offset count hasStruc =>
    exact strucInv_add_pointer_field h _ _ _
  | addStruc offset count => exact strucInv_add_struc_field h _ _
  | mergeFrom src => exact strucInv_merge h

/-- C5 counterexample: the reachable sequence add_float_field(4,4,3);
add_float_field(0,4,2); add_float_field(4,4,1) leaves offset 8 in field_set
although no stored field covers it (remove_aliases erased the count-3 field
at offset 4 and its re-insertion was blocked by is_duplicate against the
overlapping count-2 field at offset 0), so field_set is not exactly the
union of the covered offsets. -/
theorem claim_C5_counterexample :
    8 ∈ (applyOps [.addFloat 4 4 3, .addFloat 0 4 2,
        .addFloat 4 4 1]).field_set ∧
      8 ∉ strucCovered (applyOps [.addFloat 4 4 3, .addFloat 0 4 2,
        .addFloat 4 4 1]).fields := by
  decide

/-- C5 (amended): after any sequence of add_int_field, add_float_field,
add_pointer_field, add_struc_field and merge operations, field_set contains
every offset of the union over the stored fields of
offset + k * size for 0 <= k < count (no missing offsets); it may
however retain extra offsets of fields that remove_aliases erased. -/
theorem claim_C5_amended (ops : List StrucOp) (x : Nat)
    (h : x ∈ strucCovered (applyOps ops).fields) :
    x ∈ (applyOps ops).field_set := by
  revert x
  show StrucInv (applyOps ops)
  unfold applyOps
  generalize hstart : Struc.empty = s0
  have h0 : StrucInv s0 := by
    subst hstart
    intro x hx
    simp [Struc.empty, strucCovered] at hx
  clear hstart
  induction ops generalizing s0 with
  | nil => exact h0
  | cons op rest ih =>
    rw [List.foldl_cons]
    exact ih _ (strucInv_apply h0 op)

/-- C5 witness: the amended statement at a concrete operation sequence and
offset. -/
theorem claim_C5_witness :
    4 ∈ strucCovered (applyOps [.addInt 0 4 .unsigned 2]).fields ∧
      4 ∈ (applyOps [.addInt 0 4 .unsigned 2]).field_set :=
  ⟨by decide, claim_C5_amended _ 4 (by decide)⟩

/-! ### Claim C6 -/

theorem add_field_fields_of_not_dup {s : Struc} {o : Nat} {f : Field}
    (h : s.is_duplicate o f = false) :
    (s.add_field o f).fields = mmEmplace s.fields o f := by
  simp [Struc.add_field, h]

theorem is_duplicate_ignores_field_set (l : List (Nat × Field))
    (fs1 fs2 : List Nat) (o : Nat) (f : Field) :
    Struc.is_duplicate ⟨l, fs1⟩ o f = Struc.is_duplicate ⟨l, fs2⟩ o f := rfl

theorem add_float_field_fields {s : Struc} {o sz c : Nat}
    (h : Struc.is_duplicate
      ⟨s.fields.filter (fun p => !(p.1 == o && p.2.is_float_alias sz)),
        s.field_set⟩ o
      ⟨.float, sz,
        max ((s.fields.filter (fun p => p.1 == o)).foldl
          (fun acc p => max acc p.2.count) 1) c, false⟩ = false) :
    (s.add_float_field o sz c).fields =
      mmEmplace
        (s.fields.filter (fun p => !(p.1 == o && p.2.is_float_alias sz))) o
        ⟨.float, sz,
          max ((s.fields.filter (fun p => p.1 == o)).foldl
            (fun acc p => max acc p.2.count) 1) c, false⟩ := by
  unfold Struc.add_float_field Struc.remove_aliases
  exact add_field_fields_of_not_dup h

/-- C6: on a Struc with no field at or overlapping offset o, add_int_field
followed by add_float_field at the same offset and size leaves exactly a
Float field at o whose count is at least max of the two counts, and no Int
or UInt field of that size at o. -/
theorem claim_C6 (s : Struc) (o sz : Nat) (sg : Signedness) (c1 c2 : Nat)
    (_hs : sz = 2 ∨ sz = 4 ∨ sz = 8)
    (hno : ∀ p ∈ s.fields,
      p.1 ≠ o ∧ (p.1 ≤ o → p.1 + p.2.count * p.2.size ≤ o)) :
    ∃ c, max c1 c2 ≤ c ∧
      (o, (⟨.float, sz, c, false⟩ : Field)) ∈
        ((s.add_int_field o sz sg c1).add_float_field o sz c2).fields ∧
      ∀ f, (o, f) ∈
          ((s.add_int_field o sz sg c1).add_float_field o sz c2).fields →
        ¬(f.size = sz ∧ (f.type = .int ∨ f.type = .uint)) := by
  set ity : FieldType :=
    (match sg with | .unsigned => .uint | .signed => .int) with hity
  set intFld : Field := ⟨ity, sz, c1, false⟩ with hintFld
  have hity_int : ity = .uint ∨ ity = .int := by
    cases sg <;> simp [hity]
  have hfa : intFld.is_float_alias sz = true := by
    rcases hity_int with h | h <;>
      simp [Field.is_float_alias, hintFld, h]
  -- add_int_field inserts the int field: no alias at o, no duplicate
  have hal : s.has_aliases o Field.is_typed_int_alias sz = false := by
    unfold Struc.has_aliases
    have : s.fields.filter (fun p => p.1 == o) = [] := by
      rw [List.filter_eq_nil_iff]
      intro p hp
      simpa using (hno p hp).1
    rw [this]
    rfl
  have hdup1 : s.is_duplicate o intFld = false :=
    is_duplicate_false (fun p hp h1 => (hno p hp).2 h1)
  have h_s1 : (s.add_int_field o sz sg c1).fields =
      mmEmplace s.fields o intFld := by
    unfold Struc.add_int_field
    rw [if_neg (by simp [hal])]
    exact add_field_fields_of_not_dup hdup1
  -- the state passed to add_field inside add_float_field
  set s1f : List (Nat × Field) := mmEmplace s.fields o intFld with hs1f
  set cnt : Nat :=
    (s1f.filter (fun p => p.1 == o)).foldl (fun acc p => max acc p.2.count) 1
    with hcnt
  set filtered : List (Nat × Field) :=
    s1f.filter (fun p => !(p.1 == o && p.2.is_float_alias sz)) with hfiltered
  have hmem_int : (o, intFld) ∈ s1f :=
    mem_mmEmplace.mpr (Or.inr rfl)
  have hc1 : c1 ≤ cnt := by
    have hm : (o, intFld) ∈ s1f.filter (fun p => p.1 == o) := by
      rw [List.mem_filter]
      exact ⟨hmem_int, by simp⟩
    have := count_le_foldl_max hm 1
    simpa [hintFld] using this
  have hfiltered_mem : ∀ p ∈ filtered, p ∈ s.fields := by
    intro p hp
    rw [hfiltered, List.mem_filter] at hp
    rcases mem_mmEmplace.mp hp.1 with hmem | heq
    · exact hmem
    · exfalso
      have := hp.2
      rw [heq] at this
      simp [hfa] at this
  have hfiltered_no_o : ∀ p ∈ filtered, p.1 ≠ o := by
    intro p hp hpo
    rcases mem_mmEmplace.mp ((List.mem_filter.mp (hfiltered ▸ hp)).1)
      with hmem | heq
    · exact (hno p hmem).1 hpo
    · have := (List.mem_filter.mp (hfiltered ▸ hp)).2
      rw [heq] at this
      simp [hfa] at this
  set floatFld : Field := ⟨.float, sz, max cnt c2, false⟩ with hfloatFld
  have hdup2 : Struc.is_duplicate ⟨filtered, s.field_set⟩ o floatFld
      = false := by
    apply is_duplicate_false
    intro p hp h1
    exact (hno p (hfiltered_mem p hp)).2 h1
  have h_s2 : ((s.add_int_field o sz sg c1).add_float_field o sz c2).fields =
      mmEmplace filtered o floatFld := by
    rw [add_float_field_fields, h_s1]
    rw [is_duplicate_ignores_field_set _ _ s.field_set, h_s1]
    exact hdup2
  refine ⟨max cnt c2, by omega, ?_, ?_⟩
  · rw [h_s2]
    exact mem_mmEmplace.mpr (Or.inr rfl)
  · intro f hf
    rw [h_s2] at hf
    rcases mem_mmEmplace.mp hf with hmem | heq
    · exact absurd rfl (hfiltered_no_o _ hmem)
    · have : f = floatFld := congrArg Prod.snd heq
      rw [this, hfloatFld]
      rintro ⟨-, h | h⟩ <;> simp at h

/-- C6 witness: the theorem applied at the empty Struc with offset 0,
size 4, counts 1 and 2. -/
theorem claim_C6_witness :
    ((4 : Nat) = 2 ∨ (4 : Nat) = 4 ∨ (4 : Nat) = 8) ∧
      (∀ p ∈ Struc.empty.fields,
        p.1 ≠ 0 ∧ (p.1 ≤ 0 → p.1 + p.2.count * p.2.size ≤ 0)) ∧
      ∃ c, max 1 2 ≤ c ∧
        (0, (⟨.float, 4, c, false⟩ : Field)) ∈
          ((Struc.empty.add_int_field 0 4 .unsigned 1).add_float_field
            0 4 2).fields ∧
        ∀ f, (0, f) ∈
            ((Struc.empty.add_int_field 0 4 .unsigned 1).add_float_field
              0 4 2).fields →
          ¬(f.size = 4 ∧ (f.type = .int ∨ f.type = .uint)) :=
  ⟨by decide, by simp [Struc.empty],
    claim_C6 Struc.empty 0 4 .unsigned 1 2 (by decide)
      (by simp [Struc.empty])⟩

/-! ## Value and context model (contexts.cxx)

The Context class itself (constructors, set_register with its incremental
hash, make_child) is embedded from contexts.cxx. The register file, the
sparse memory, the hash utility and the tracked-register set live in
headers that are not among the sources (registers.hxx, memory.hxx,
utils/hash.hxx, value.hxx); those parts are modelled from the
specification, as marked on each definition. Addresses are Nat with 0 for
the null pointer; the signed symbol offset is carried as its 64-bit pattern
(a Nat below 2^64). -/

/-- Tracked architectural registers (ZydisRegister subset). The zmm
constructor covers the SIMD registers as single slots. -/
inductive Reg
| rax
| rbx
| rcx
| rdx
| rsp
| rbp
| rsi
| rdi
| r8
| r9
| r10
| r11
| r12
| r13
| r14
| r15
| zmm (n : Nat)
| rip
deriving DecidableEq, Repr

/-- Recontex::volatile_registers_ (recontex.cxx, lines 20-26). -/
def volatile_registers : List Reg :=
  [.rax, .rcx, .rdx, .r8, .r9, .r10, .r11,
   .zmm 0, .zmm 1, .zmm 2, .zmm 3, .zmm 4, .zmm 5]

/-- Recontex::nonvolatile_registers_ (recontex.cxx, lines 28-36). -/
def nonvolatile_registers : List Reg :=
  [.rbx, .rbp, .rsp, .rdi, .rsi, .r12, .r13, .r14, .r15,
   .zmm 6, .zmm 7, .zmm 8, .zmm 9, .zmm 10, .zmm 11,
   .zmm 12, .zmm 13, .zmm 14, .zmm 15]

/-- Modelled from the spec: virt::Registers::is_tracked and register_map are
declared in a header not among the sources; per §3 and §4.6 the tracked set
is the general-purpose 64-bit and SIMD registers, i.e. the volatile and
non-volatile sets. -/
def Reg.is_tracked (r : Reg) : Bool :=
  decide (r ∈ volatile_registers ∨ r ∈ nonvolatile_registers)

/-- Modelled from the spec: the numeric ZydisRegister enumerator value folded
into the hash when a register is first set; any injective assignment serves,
no claim depends on the concrete values. -/
def Reg.index : Reg → Nat
| .rax => 0
| .rbx => 1
| .rcx => 2
| .rdx => 3
| .rsp => 4
| .rbp => 5
| .rsi => 6
| .rdi => 7
| .r8 => 8
| .r9 => 9
| .r10 => 10
| .r11 => 11
| .r12 => 12
| .r13 => 13
| .r14 => 14
| .r15 => 15
| .zmm n => 16 + n
| .rip => 100

/-- Modelled from the spec: virt::Value (value.hxx is not among the
sources). A machine word is concrete (64-bit unsigned) or symbolic (opaque
id plus offset), tagged with the source address and a size in bytes. -/
inductive Value
| concrete (source : Nat) (value : Nat) (size : Nat)
| symbolic (source : Nat) (size : Nat) (offset : Nat) (id : Nat)
deriving DecidableEq, Repr

def Value.source : Value → Nat
| .concrete s _ _ => s
| .symbolic s _ _ _ => s

def Value.size : Value → Nat
| .concrete _ _ sz => sz
| .symbolic _ sz _ _ => sz

def Value.is_symbolic : Value → Bool
| .concrete _ _ _ => false
| .symbolic _ _ _ _ => true

def Value.set_source (v : Value) (src : Nat) : Value :=
  match v with
  | .concrete _ x sz => .concrete src x sz
  | .symbolic _ sz off id => .symbolic src sz off id

def Value.set_size (v : Value) (sz : Nat) : Value :=
  match v with
  | .concrete s x _ => .concrete s x sz
  | .symbolic s _ off id => .symbolic s sz off id

/-- Modelled from the spec: the register file is parent-chained; a child
overrides only changed entries and get walks the chain (§3). -/
inductive RegFile
| root (m : List (Reg × Value))
| child (parent : RegFile) (m : List (Reg × Value))
deriving DecidableEq, Repr

def assocFind : List (Reg × Value) → Reg → Option Value
| [], _ => none
| (r', v) :: rest, r => if r = r' then some v else assocFind rest r

def RegFile.get : RegFile → Reg → Option Value
| .root m, r => assocFind m r
| .child p m, r =>
  match assocFind m r with
  | some v => some v
  | none => p.get r

def RegFile.set : RegFile → Reg → Value → RegFile
| .root m, r, v => .root ((r, v) :: m)
| .child p m, r, v => .child p ((r, v) :: m)

/-- Modelled from the spec: sparse parent-chained memory; a read at
(addr, size) collects every previously written value whose interval
overlaps the read interval, from any ancestor (§3). -/
inductive Mem
| root (m : List (Nat × Value))
| child (parent : Mem) (m : List (Nat × Value))
deriving DecidableEq, Repr

def memCollect (writes : List (Nat × Value)) (a sz : Nat) : List Value :=
  (writes.filter
    (fun w => decide (w.1 < a + sz) && decide (a < w.1 + w.2.size))).map
    (fun w => w.2)

def Mem.get : Mem → Nat → Nat → List Value
| .root m, a, sz => memCollect m a sz
| .child p m, a, sz => memCollect m a sz ++ p.get a sz

def Mem.set : Mem → Nat → Value → Mem
| .root m, a, v => .root ((a, v) :: m)
| .child p m, a, v => .child p ((a, v) :: m)

/-- Modelled from the spec: utils hash_combine (utils/hash.hxx is not among
the sources); an arbitrary 64-bit fold in the boost style, the claims do
not depend on the concrete function. -/
def hashCombine (h x : Nat) : Nat :=
  (h ^^^ (x + 2654435769 + h * 64 + h / 4)) % 2 ^ 64

/-- Context::ParentRole (contexts.hxx is not among the sources; the
constructor compares the role against ParentRole::Caller, the default role
of make_child is the other one). -/
inductive ParentRole
| Default
| Caller
deriving DecidableEq, Repr

/-- Context (contexts.cxx): hash, monotonic id, caller id, parent-chained
register file and memory. -/
structure Context where
  hash : Nat
  id : Nat
  caller_id : Nat
  registers : RegFile
  memory : Mem
deriving DecidableEq, Repr

/-- Context::get_register. -/
def Context.get_register (c : Context) (r : Reg) : Option Value :=
  c.registers.get r

/-- Context::get_memory. -/
def Context.get_memory (c : Context) (a sz : Nat) : List Value :=
  c.memory.get a sz

/-- Context::set_register (contexts.cxx, lines 1365-1392 of the combined
file): untracked registers are ignored; the hash folds the old value
(source and id-or-value) when one exists, otherwise the register
enumerator, then the new id-or-value and the new source. -/
def Context.set_register (c : Context) (r : Reg) (v : Value) : Context :=
  if ¬ r.is_tracked then c
  else
    let h1 :=
      match c.get_register r with
      | some old =>
        let ha := hashCombine c.hash old.source
        match old with
        | .symbolic _ _ _ id => hashCombine ha id
        | .concrete _ x _ => hashCombine ha x
      | none => hashCombine c.hash r.index
    let h2 :=
      match v with
      | .symbolic _ _ _ id => hashCombine h1 id
      | .concrete _ x _ => hashCombine h1 x
    let h3 := hashCombine h2 v.source
    { c with hash := h3, registers := c.registers.set r v }

/-- Context::set_memory. -/
def Context.set_memory (c : Context) (a : Nat) (v : Value) : Context :=
  { c with memory := c.memory.set a v }

/-- Context::Context(Context const *parent, ParentRole parent_role) and
Context::make_child: the child copies the hash, takes a fresh id from the
global monotonic counter (modelled by threading the counter), inherits or
adopts the caller id depending on the role, and chains register file and
memory to the parent with empty override maps. -/
def Context.make_child (c : Context) (role : ParentRole) (counter : Nat) :
    Context × Nat :=
  (⟨c.hash, counter + 1,
    (match role with | .Caller => c.id | .Default => c.caller_id),
    .child c.registers [], .child c.memory []⟩, counter + 1)

/-! ## Context store (Recontex::emplace_context, recontex.cxx)

FloContexts is declared in recontex.hxx, which is not among the sources;
per §3 and §4.3 of the specification it is a std::multimap from address to
Context, represented as a list in map order (sorted by address, and by
hash inside an address range, which emplace_context maintains). -/

/-- Recontex::emplace_context: find the upper bound of the context hash
inside the address range and emplace there. std::multimap::emplace_hint
always inserts; equal keys stay in hint order. -/
def emplace_context : List (Nat × Context) → Nat → Context → List (Nat × Context)
| [], a, c => [(a, c)]
| p :: rest, a, c =>
  if p.1 < a then p :: emplace_context rest a c
  else if p.1 = a ∧ p.2.hash ≤ c.hash then p :: emplace_context rest a c
  else (a, c) :: p :: rest

/-- The multimap order emplace_context maintains: ascending address, and
ascending hash among contexts at one address. -/
def storeOrdered (st : List (Nat × Context)) : Prop :=
  st.Pairwise (fun p q => p.1 < q.1 ∨ (p.1 = q.1 ∧ p.2.hash ≤ q.2.hash))

theorem mem_emplace_context {st : List (Nat × Context)} {a : Nat}
    {c : Context} {q : Nat × Context} :
    q ∈ emplace_context st a c ↔ q ∈ st ∨ q = (a, c) := by
  induction st with
  | nil => simp [emplace_context]
  | cons p rest ih =>
    unfold emplace_context
    by_cases h1 : p.1 < a
    · simp [h1, ih]
      tauto
    · by_cases h2 : p.1 = a ∧ p.2.hash ≤ c.hash
      · simp [h1, h2, ih]
        tauto
      · simp [h1, h2]
        tauto

theorem length_emplace_context (st : List (Nat × Context)) (a : Nat)
    (c : Context) :
    (emplace_context st a c).length = st.length + 1 := by
  induction st with
  | nil => rfl
  | cons p rest ih =>
    unfold emplace_context
    by_cases h1 : p.1 < a
    · simp [h1, ih]
    · by_cases h2 : p.1 = a ∧ p.2.hash ≤ c.hash
      · simp [h1, h2, ih]
      · simp [h1, h2]

theorem storeOrdered_emplace_context {st : List (Nat × Context)} {a : Nat}
    {c : Context} (h : storeOrdered st) :
    storeOrdered (emplace_context st a c) := by
  induction st with
  | nil => simp [emplace_context, storeOrdered]
  | cons p rest ih =>
    rw [storeOrdered, List.pairwise_cons] at h
    obtain ⟨hp, hrest⟩ := h
    unfold emplace_context
    by_cases h1 : p.1 < a
    · rw [if_pos h1, storeOrdered, List.pairwise_cons]
      refine ⟨?_, ih hrest⟩
      intro q hq
      rcases mem_emplace_context.mp hq with hq' | rfl
      · exact hp q hq'
      · exact Or.inl h1
    · rw [if_neg h1]
      by_cases h2 : p.1 = a ∧ p.2.hash ≤ c.hash
      · rw [if_pos h2, storeOrdered, List.pairwise_cons]
        refine ⟨?_, ih hrest⟩
        intro q hq
        rcases mem_emplace_context.mp hq with hq' | rfl
        · exact hp q hq'
        · exact Or.inr ⟨h2.1, h2.2⟩
      · rw [if_neg h2, storeOrdered, List.pairwise_cons]
        have ha : a ≤ p.1 := Nat.le_of_not_lt h1
        refine ⟨?_, List.pairwise_cons.mpr ⟨hp, hrest⟩⟩
        intro q hq
        rcases List.mem_cons.mp hq with rfl | hq'
        · rcases Nat.lt_or_ge a q.1 with hlt | hge
          · exact Or.inl hlt
          · have heq : q.1 = a := Nat.le_antisymm hge ha
            have hh : ¬ q.2.hash ≤ c.hash := fun hle => h2 ⟨heq, hle⟩
            exact Or.inr ⟨heq.symm, Nat.le_of_lt (Nat.lt_of_not_le hh)⟩
        · rcases hp q hq' with hlt | ⟨heq, hle⟩
          · exact Or.inl (Nat.lt_of_le_of_lt ha hlt)
          · rcases Nat.lt_or_eq_of_le ha with hlt | hae
            · exact Or.inl (hlt.trans_eq heq)
            · have hpa : p.1 = a := hae.symm
              have hh : ¬ p.2.hash ≤ c.hash := fun hle2 => h2 ⟨hpa, hle2⟩
              exact Or.inr ⟨hae ▸ heq, Nat.le_trans
                (Nat.le_of_lt (Nat.lt_of_not_le hh)) hle⟩

/-- C1 counterexample: two children of the same context (freshly created,
distinct ids) share the parent hash; emplacing the second at the same
address as the first does not leave the store unchanged, it stores both, so
two contexts with equal hashes coexist at one address. -/
theorem claim_C1_counterexample :
    (((⟨5, 1, 0, .root [], .root []⟩ : Context).make_child .Default 1).1.hash
      = (((⟨5, 1, 0, .root [], .root []⟩ : Context).make_child
        .Default 2).1).hash) ∧
    emplace_context
        [(0, ((⟨5, 1, 0, .root [], .root []⟩ : Context).make_child
          .Default 1).1)] 0
        ((⟨5, 1, 0, .root [], .root []⟩ : Context).make_child .Default 2).1 =
      [(0, ((⟨5, 1, 0, .root [], .root []⟩ : Context).make_child
          .Default 1).1),
        (0, ((⟨5, 1, 0, .root [], .root []⟩ : Context).make_child
          .Default 2).1)] ∧
    emplace_context
        [(0, ((⟨5, 1, 0, .root [], .root []⟩ : Context).make_child
          .Default 1).1)] 0
        ((⟨5, 1, 0, .root [], .root []⟩ : Context).make_child .Default 2).1 ≠
      [(0, ((⟨5, 1, 0, .root [], .root []⟩ : Context).make_child
          .Default 1).1)] := by
  refine ⟨by decide, by decide, by decide⟩

/-- C1 (amended): emplace_context keeps the per-address context bags sorted
by hash and always inserts (multimap emplace_hint semantics): the store
grows by the new context, also when its hash equals the hash of a context
already stored at that address, so duplicate hashes at one address are
retained, not dropped. -/
theorem claim_C1_amended (st : List (Nat × Context)) (a : Nat) (c : Context)
    (h : storeOrdered st) :
    (a, c) ∈ emplace_context st a c ∧
      (emplace_context st a c).length = st.length + 1 ∧
      storeOrdered (emplace_context st a c) :=
  ⟨mem_emplace_context.mpr (Or.inr rfl), length_emplace_context st a c,
    storeOrdered_emplace_context h⟩

/-- C1 witness: the amended statement at a concrete one-entry store. -/
theorem claim_C1_witness :
    storeOrdered [(0, (⟨5, 1, 0, .root [], .root []⟩ : Context))] ∧
      ((0, (⟨7, 2, 0, .root [], .root []⟩ : Context)) ∈ emplace_context
        [(0, (⟨5, 1, 0, .root [], .root []⟩ : Context))] 0
        (⟨7, 2, 0, .root [], .root []⟩ : Context) ∧
      (emplace_context [(0, (⟨5, 1, 0, .root [], .root []⟩ : Context))] 0
        (⟨7, 2, 0, .root [], .root []⟩ : Context)).length =
        [(0, (⟨5, 1, 0, .root [], .root []⟩ : Context))].length + 1 ∧
      storeOrdered (emplace_context
        [(0, (⟨5, 1, 0, .root [], .root []⟩ : Context))] 0
        (⟨7, 2, 0, .root [], .root []⟩ : Context))) :=
  ⟨by simp [storeOrdered],
    claim_C1_amended _ 0 _ (by simp [storeOrdered])⟩

/-! ## Register and memory access lemmas -/

theorem regFile_get_set_ne (rf : RegFile) (r r' : Reg) (v : Value)
    (h : r ≠ r') : (rf.set r' v).get r = rf.get r := by
  cases rf <;> simp [RegFile.set, RegFile.get, assocFind, h]

theorem regFile_get_set_same (rf : RegFile) (r : Reg) (v : Value) :
    (rf.set r v).get r = some v := by
  cases rf <;> simp [RegFile.set, RegFile.get, assocFind]

theorem set_register_untracked {c : Context} {r : Reg} {v : Value}
    (h : r.is_tracked = false) : c.set_register r v = c := by
  simp [Context.set_register, h]

theorem get_register_set_ne {c : Context} {r r' : Reg} {v : Value}
    (h : r ≠ r') :
    (c.set_register r' v).get_register r = c.get_register r := by
  unfold Context.set_register
  by_cases ht : r'.is_tracked
  · simp only [ht, not_true_eq_false, if_false]
    exact regFile_get_set_ne _ _ _ _ h
  · simp [ht]

theorem get_register_set_same {c : Context} {r : Reg} {v : Value}
    (ht : r.is_tracked = true) :
    (c.set_register r v).get_register r = some v := by
  unfold Context.set_register
  simp only [ht, not_true_eq_false, if_false]
  exact regFile_get_set_same _ _ _

theorem set_register_memory (c : Context) (r : Reg) (v : Value) :
    (c.set_register r v).memory = c.memory := by
  unfold Context.set_register
  by_cases ht : r.is_tracked <;> simp [ht]

theorem get_register_set_memory (c : Context) (a : Nat) (v : Value)
    (r : Reg) : (c.set_memory a v).get_register r = c.get_register r := rfl

/-! ### Claim C10 -/

/-- C10: make_child copies the parent hash, takes a fresh id (distinct from
the parent id and every id at most the current counter value), and its
register and memory reads agree with the parent everywhere, as long as the
child has not been mutated. -/
theorem claim_C10 (c : Context) (role : ParentRole) (counter : Nat)
    (hc : c.id ≤ counter) :
    (c.make_child role counter).1.hash = c.hash ∧
      (c.make_child role counter).1.id = counter + 1 ∧
      (c.make_child role counter).1.id ≠ c.id ∧
      (∀ p, p ≤ counter → (c.make_child role counter).1.id ≠ p) ∧
      (∀ r, (c.make_child role counter).1.get_register r =
        c.get_register r) ∧
      (∀ a sz, (c.make_child role counter).1.get_memory a sz =
        c.get_memory a sz) := by
  refine ⟨rfl, rfl, ?_, ?_, ?_, ?_⟩
  · show counter + 1 ≠ c.id
    omega
  · intro p hp
    show counter + 1 ≠ p
    omega
  · intro r
    rfl
  · intro a sz
    rfl

/-- C10 witness: the theorem applied to a concrete context and counter. -/
theorem claim_C10_witness :
    (⟨5, 1, 0, .root [], .root []⟩ : Context).id ≤ 3 ∧
      (((⟨5, 1, 0, .root [], .root []⟩ : Context).make_child
          .Caller 3).1.hash =
        (⟨5, 1, 0, .root [], .root []⟩ : Context).hash ∧
      ((⟨5, 1, 0, .root [], .root []⟩ : Context).make_child
          .Caller 3).1.id = 3 + 1 ∧
      ((⟨5, 1, 0, .root [], .root []⟩ : Context).make_child
          .Caller 3).1.id ≠ (⟨5, 1, 0, .root [], .root []⟩ : Context).id ∧
      (∀ p, p ≤ 3 →
        ((⟨5, 1, 0, .root [], .root []⟩ : Context).make_child
          .Caller 3).1.id ≠ p) ∧
      (∀ r, ((⟨5, 1, 0, .root [], .root []⟩ : Context).make_child
          .Caller 3).1.get_register r =
        (⟨5, 1, 0, .root [], .root []⟩ : Context).get_register r) ∧
      (∀ a sz, ((⟨5, 1, 0, .root [], .root []⟩ : Context).make_child
          .Caller 3).1.get_memory a sz =
        (⟨5, 1, 0, .root [], .root []⟩ : Context).get_memory a sz)) :=
  ⟨by decide, claim_C10 _ .Caller 3 (by decide)⟩

/-! ### Claim C4 -/

/-- Recontex::emulate_instruction_call (recontex.cxx, lines 632-655): the
commented-out RSP adjustment is omitted in the source; every volatile
register is set to a fresh symbolic value (make_symbolic_value with a fresh
id, modelled by threading the symbol-id counter); nothing else is
touched. -/
def Recontex.emulate_instruction_call (c : Context) (address : Nat)
    (symCounter : Nat) : Context × Nat :=
  volatile_registers.foldl
    (fun acc r =>
      (acc.1.set_register r (.symbolic address 8 0 (acc.2 + 1)), acc.2 + 1))
    (c, symCounter)

theorem foldl_call_get_notmem (address : Nat) :
    ∀ (l : List Reg) (st : Context × Nat) (r : Reg), r ∉ l →
      ((l.foldl (fun acc x =>
          (acc.1.set_register x (.symbolic address 8 0 (acc.2 + 1)),
            acc.2 + 1)) st).1.get_register r = st.1.get_register r)
| [], _, _, _ => rfl
| x :: xs, st, r, h => by
  rw [List.foldl_cons]
  have hx : r ≠ x := fun he => h (he ▸ List.mem_cons_self x xs)
  have hxs : r ∉ xs := fun hm => h (List.mem_cons_of_mem x hm)
  rw [foldl_call_get_notmem address xs _ r hxs]
  exact get_register_set_ne hx

theorem foldl_call_memory (address : Nat) :
    ∀ (l : List Reg) (st : Context × Nat),
      ((l.foldl (fun acc x =>
          (acc.1.set_register x (.symbolic address 8 0 (acc.2 + 1)),
            acc.2 + 1)) st).1.memory = st.1.memory)
| [], _ => rfl
| x :: xs, st => by
  rw [List.foldl_cons, foldl_call_memory address xs]
  exact set_register_memory _ _ _

theorem foldl_call_get_mem (address : Nat) :
    ∀ (l : List Reg) (st : Context × Nat) (r : Reg), r ∈ l →
      (∀ x ∈ l, x.is_tracked = true) →
      ∃ i, st.2 < i ∧ i ≤ st.2 + l.length ∧
        ((l.foldl (fun acc x =>
            (acc.1.set_register x (.symbolic address 8 0 (acc.2 + 1)),
              acc.2 + 1)) st).1.get_register r =
          some (.symbolic address 8 0 i))
| [], _, _, h, _ => absurd h (List.not_mem_nil _)
| x :: xs, st, r, h, htr => by
  rw [List.foldl_cons]
  by_cases hxs : r ∈ xs
  · obtain ⟨i, hi1, hi2, hi3⟩ := foldl_call_get_mem address xs
      (st.1.set_register x (.symbolic address 8 0 (st.2 + 1)), st.2 + 1) r
      hxs (fun y hy => htr y (List.mem_cons_of_mem x hy))
    exact ⟨i, by omega, by simp only [List.length_cons]; omega, hi3⟩
  · have hrx : r = x := by
      rcases List.mem_cons.mp h with he | hm
      · exact he
      · exact absurd hm hxs
    refine ⟨st.2 + 1, by omega, by simp only [List.length_cons]; omega, ?_⟩
    rw [foldl_call_get_notmem address xs _ r hxs]
    subst hrx
    exact get_register_set_same (htr r (List.mem_cons_self r xs))

/-- C4: emulating CALL sets each volatile register (RAX, RCX, RDX, R8, R9,
R10, R11, ZMM0..ZMM5) to a fresh symbolic value and changes nothing else:
RSP and every register outside the volatile set keep their values, and the
memory is untouched. -/
theorem claim_C4 (c : Context) (address symCounter : Nat) :
    (∀ r ∈ volatile_registers, ∃ i, symCounter < i ∧
      i ≤ symCounter + volatile_registers.length ∧
      (Recontex.emulate_instruction_call c address
        symCounter).1.get_register r = some (.symbolic address 8 0 i)) ∧
    (∀ r, r ∉ volatile_registers →
      (Recontex.emulate_instruction_call c address
        symCounter).1.get_register r = c.get_register r) ∧
    (Reg.rsp ∉ volatile_registers ∧
      (Recontex.emulate_instruction_call c address
        symCounter).1.get_register .rsp = c.get_register .rsp) ∧
    (Recontex.emulate_instruction_call c address symCounter).1.memory =
      c.memory ∧
    (∀ a sz, (Recontex.emulate_instruction_call c address
      symCounter).1.get_memory a sz = c.get_memory a sz) := by
  have hrsp : Reg.rsp ∉ volatile_registers := by decide
  have htr : ∀ x ∈ volatile_registers, x.is_tracked = true := by decide
  have hmem : (Recontex.emulate_instruction_call c address
      symCounter).1.memory = c.memory :=
    foldl_call_memory address volatile_registers (c, symCounter)
  refine ⟨?_, ?_, ⟨hrsp, ?_⟩, hmem, ?_⟩
  · intro r hr
    exact foldl_call_get_mem address volatile_registers (c, symCounter) r
      hr htr
  · intro r hr
    exact foldl_call_get_notmem address volatile_registers (c, symCounter)
      r hr
  · exact foldl_call_get_notmem address volatile_registers (c, symCounter)
      .rsp hrsp
  · intro a sz
    unfold Context.get_memory
    rw [hmem]

/-- C4 witness: one conjunct of the theorem at a concrete context,
instruction address and counter. -/
theorem claim_C4_witness :
    Reg.rax ∈ volatile_registers ∧
      ∃ i, 0 < i ∧ i ≤ 0 + volatile_registers.length ∧
        (Recontex.emulate_instruction_call
          (⟨0, 1, 0, .root [], .root []⟩ : Context) 7 0).1.get_register
          .rax = some (.symbolic 7 8 0 i) :=
  ⟨by decide,
    (claim_C4 (⟨0, 1, 0, .root [], .root []⟩ : Context) 7 0).1 .rax
      (by decide)⟩

/-! ### Claim C8 -/

/-- A register operand of a decoded instruction: the register and the
Zydis element_size in bits. -/
structure RegOperand where
  reg : Reg
  element_size : Nat
deriving DecidableEq, Repr

/-- The ADD/SUB/OR/AND/XOR/IMUL mnemonics handled through
emulation_callback_actions_. -/
inductive BinopMnemonic
| add
| sub
| or
| and
| xor
| imul
deriving DecidableEq, Repr

/-- Recontex::emulation_callback_actions_ (recontex.cxx, lines 38-52): the
uintptr_t operations, reduced mod 2^64. -/
def emulation_callback_action : BinopMnemonic → Nat → Nat → Nat
| .add => fun d s => (d + s) % 2 ^ 64
| .sub => fun d s => (d + (2 ^ 64 - s % 2 ^ 64)) % 2 ^ 64
| .or => fun d s => d ||| s
| .and => fun d s => d &&& s
| .xor => fun d s => d ^^^ s
| .imul => fun d s => (d * s) % 2 ^ 64

/-- Recontex::get_operand, register case (recontex.cxx, lines 743-753): the
stored value with its size set to the element size, or a fresh symbolic
value when the register was never set; the fresh id is threaded through the
counter. -/
def get_operand_reg (c : Context) (source : Nat) (r : Reg) (esBits : Nat)
    (cnt : Nat) : Value × Nat :=
  match c.get_register r with
  | some v => (v.set_size (esBits / 8), cnt)
  | none => (.symbolic source (esBits / 8) 0 (cnt + 1), cnt + 1)

/-- Recontex::emulate_instruction_helper (recontex.cxx, lines 698-729):
concrete-concrete applies the action under the sub-4-byte
preserve-high-bits / otherwise truncating mask; symbolic-dst with concrete
src shifts the symbol offset by the action; anything else is a fresh
symbolic value of the destination size sourced at the source value's
source. -/
def emulate_instruction_helper (dst src : Value)
    (action : Nat → Nat → Nat) (cnt : Nat) : Value × Nat :=
  match dst, src with
  | .concrete _ dv dsz, .concrete ssrc sv _ =>
    let mask := if dsz < 8 then 2 ^ (dsz * 8) - 1 else 2 ^ 64 - 1
    if dsz < 4 then
      (.concrete ssrc
        ((dv &&& ((2 ^ 64 - 1) ^^^ mask)) ||| (action dv sv &&& mask)) dsz,
        cnt)
    else
      (.concrete ssrc (action dv sv &&& mask) dsz, cnt)
  | .symbolic _ dsz doff did, .concrete ssrc sv _ =>
    (.symbolic ssrc dsz (action doff sv % 2 ^ 64) did, cnt)
  | _, _ => (.symbolic src.source dst.size 0 (cnt + 1), cnt + 1)

/-- Recontex::emulate_instruction restricted to an ADD-class or XOR
instruction with two explicit register operands (recontex.cxx, lines
528-578): read both operands, special-case XOR on the same register to a
concrete 0 of the second operand's element size, otherwise apply the
mnemonic's callback; stamp the result with the instruction address and
write it to the destination register. -/
def Recontex.emulate_binop (mnem : BinopMnemonic) (c : Context)
    (address : Nat) (dstOp srcOp : RegOperand) (cnt : Nat) :
    Context × Nat :=
  let d := get_operand_reg c address dstOp.reg dstOp.element_size cnt
  let s := get_operand_reg c address srcOp.reg srcOp.element_size d.2
  let res :=
    if mnem = .xor ∧ dstOp.reg = srcOp.reg then
      ((Value.concrete address 0 (srcOp.element_size / 8)), s.2)
    else
      emulate_instruction_helper d.1 s.1 (emulation_callback_action mnem) s.2
  (c.set_register dstOp.reg (res.1.set_source address), res.2)

/-- Later operations on a context that are visible to get_register: another
set_register or a set_memory. -/
inductive Mutation
| setReg (r : Reg) (v : Value)
| setMem (a : Nat) (v : Value)
deriving DecidableEq, Repr

/-- Whether a mutation writes the given register. -/
def Mutation.writesReg : Mutation → Reg → Bool
| .setReg r _, r' => decide (r = r')
| .setMem _ _, _ => false

/-- Apply a list of mutations to a context in order. -/
def applyMutations (c : Context) : List Mutation → Context
| [] => c
| .setReg r v :: rest => applyMutations (c.set_register r v) rest
| .setMem a v :: rest => applyMutations (c.set_memory a v) rest

theorem get_register_applyMutations {r : Reg} :
    ∀ (muts : List Mutation) (c : Context),
      (∀ m ∈ muts, m.writesReg r = false) →
      (applyMutations c muts).get_register r = c.get_register r
| [], _, _ => rfl
| m :: rest, c, h => by
  have hrest : ∀ m' ∈ rest, m'.writesReg r = false :=
    fun m' hm' => h m' (List.mem_cons_of_mem m hm')
  cases m with
  | setReg r' v =>
    rw [applyMutations, get_register_applyMutations rest _ hrest]
    have hne : r' ≠ r := by
      have := h _ (List.mem_cons_self _ rest)
      simpa [Mutation.writesReg] using this
    exact get_register_set_ne (Ne.symm hne)
  | setMem a v =>
    rw [applyMutations, get_register_applyMutations rest _ hrest]
    exact get_register_set_memory c a v r

/-- C8: emulating XOR whose two explicit operands are the same register sets
that register to the concrete value 0 with the operand's element size, and
any later reads of that register return concrete 0 as long as no later
operation writes it. -/
theorem claim_C8 (c : Context) (address : Nat) (op : RegOperand)
    (cnt : Nat) (ht : op.reg.is_tracked = true) :
    (Recontex.emulate_binop .xor c address op op cnt).1.get_register op.reg
      = some (.concrete address 0 (op.element_size / 8)) ∧
    ∀ muts : List Mutation, (∀ m ∈ muts, m.writesReg op.reg = false) →
      (applyMutations
        (Recontex.emulate_binop .xor c address op op cnt).1
        muts).get_register op.reg =
        some (.concrete address 0 (op.element_size / 8)) := by
  have hbase : (Recontex.emulate_binop .xor c address op op
      cnt).1.get_register op.reg =
      some (.concrete address 0 (op.element_size / 8)) := by
    unfold Recontex.emulate_binop
    dsimp only
    have hcond : (BinopMnemonic.xor = BinopMnemonic.xor ∧
        op.reg = op.reg) := ⟨rfl, rfl⟩
    rw [if_pos hcond]
    exact get_register_set_same ht
  refine ⟨hbase, ?_⟩
  intro muts hmuts
  rw [get_register_applyMutations muts _ hmuts]
  exact hbase

/-- C8 witness: the theorem at a concrete context, address, operand and
mutation list that does not write the register. -/
theorem claim_C8_witness :
    (Reg.rax.is_tracked = true) ∧
      (∀ m ∈ ([.setReg .rcx (.concrete 9 1 8), .setMem 16 (.concrete 9 2 8)]
        : List Mutation), m.writesReg .rax = false) ∧
      (applyMutations
        (Recontex.emulate_binop .xor
          (⟨0, 1, 0, .root [], .root []⟩ : Context) 7 ⟨.rax, 32⟩
          ⟨.rax, 32⟩ 0).1
        [.setReg .rcx (.concrete 9 1 8), .setMem 16 (.concrete 9 2 8)]
        ).get_register .rax = some (.concrete 7 0 4) :=
  ⟨by decide, by decide,
    (claim_C8 (⟨0, 1, 0, .root [], .root []⟩ : Context) 7 ⟨.rax, 32⟩ 0
      (by decide)).2
      [.setReg .rcx (.concrete 9 1 8), .setMem 16 (.concrete 9 2 8)]
      (by decide)⟩

/-! ## Jump classification (Restruc::CFGraph::get_jump_type, restruc.hxx
old CFGraph variant, lines 333-353 of the combined file) -/

/-- Restruc::Jump::Type. -/
inductive JumpType
| Inner
| Outer
| Unknown
deriving DecidableEq, Repr

/-- The part of Restruc::CFGraph that get_jump_type reads: the entry point
and the key set of the instructions map (addresses of the decoded
instructions, including the jump being classified, which fill_cfgraph adds
before calling analyze). -/
structure CFGraph where
  entry_point : Nat
  instructions : List Nat
deriving DecidableEq, Repr

/-- Restruc::CFGraph::get_jump_type: dst equal to the fallthrough is Inner
(offset-0 jump); a jump that is the only instruction so far is Outer;
a dst among the decoded instructions is Inner; a dst above (before) the
entry point is Outer; anything else is Unknown. The src parameter is
unused, as in the source. -/
def CFGraph.get_jump_type (cf : CFGraph) (dst _src next : Nat) : JumpType :=
  if dst = next then .Inner
  else if cf.instructions.length = 1 then .Outer
  else if dst ∈ cf.instructions then .Inner
  else if dst < cf.entry_point then .Outer
  else .Unknown

/-- The classification as the claim words it; the second rule reads "the
jump is the first instruction of the cfgraph", formalized as: every decoded
instruction is this jump. -/
def jump_type_spec (cf : CFGraph) (dst src next : Nat) : JumpType :=
  if dst = next then .Inner
  else if ∀ a ∈ cf.instructions, a = src then .Outer
  else if dst ∈ cf.instructions then .Inner
  else if dst < cf.entry_point then .Outer
  else .Unknown

/-- C3: get_jump_type implements the claimed rule order; the source tests
instructions.size() == 1, which under the map invariants (the jump src is a
key and keys are distinct) is equivalent to the jump being the first and
only instruction. -/
theorem claim_C3 (cf : CFGraph) (dst src next : Nat)
    (hsrc : src ∈ cf.instructions) (hnd : cf.instructions.Nodup) :
    cf.get_jump_type dst src next = jump_type_spec cf dst src next := by
  unfold CFGraph.get_jump_type jump_type_spec
  by_cases h1 : dst = next
  · simp [h1]
  · rw [if_neg h1, if_neg h1]
    have hiff : cf.instructions.length = 1 ↔
        (∀ a ∈ cf.instructions, a = src) := by
      constructor
      · intro hlen a ha
        obtain ⟨x, hx⟩ := List.length_eq_one.mp hlen
        rw [hx] at ha hsrc
        rw [List.mem_singleton] at ha hsrc
        rw [ha, hsrc]
      · intro hall
        rcases hl : cf.instructions with - | ⟨a, t⟩
        · rw [hl] at hsrc
          cases hsrc
        · cases t with
          | nil => rfl
          | cons b t2 =>
            exfalso
            have ha : a = src := hall a (by rw [hl]; exact List.mem_cons_self _ _)
            have hb : b = src := hall b
              (by rw [hl]; exact List.mem_cons_of_mem _ (List.mem_cons_self _ _))
            rw [hl] at hnd
            rw [List.nodup_cons] at hnd
            exact hnd.1 (by rw [ha, ← hb]; exact List.mem_cons_self _ _)
    by_cases h2 : cf.instructions.length = 1
    · rw [if_pos h2, if_pos (hiff.mp h2)]
    · rw [if_neg h2, if_neg (fun hall => h2 (hiff.mpr hall))]

/-- C3 witness: the theorem at a concrete two-instruction cfgraph. -/
theorem claim_C3_witness :
    (105 ∈ [100, 105]) ∧ ([100, 105] : List Nat).Nodup ∧
      CFGraph.get_jump_type ⟨100, [100, 105]⟩ 90 105 107 =
        jump_type_spec ⟨100, [100, 105]⟩ 90 105 107 :=
  ⟨by decide, by decide,
    claim_C3 ⟨100, [100, 105]⟩ 90 105 107 (by decide) (by decide)⟩

/-! ## PE machine check and exit codes (pe.cxx part of struc.cxx;
main.cxx) -/

/-- IMAGE_FILE_MACHINE_AMD64 = 0x8664. -/
def IMAGE_FILE_MACHINE_AMD64 : Nat := 34404

/-- The part of the PE file wmain's outcome depends on through the claim:
the file-header machine type. -/
structure PEFile where
  machine : Nat
deriving DecidableEq, Repr

/-- Errors escaping the pipeline as exceptions. -/
inductive PEError
| unsupportedArchitecture
| analysisError
deriving DecidableEq, Repr

/-- PE::PE (pe.cxx): opening the binary image throws the unsupported
architecture error when the file-header machine type is not AMD64; the
section indexing that follows is irrelevant to the claims. -/
def PE_open (f : PEFile) : Except PEError PEFile :=
  if f.machine ≠ IMAGE_FILE_MACHINE_AMD64 then
    .error .unsupportedArchitecture
  else .ok f

/-- wmain (main.cxx): with the wrong argument count return EXIT_FAILURE;
otherwise run the pipeline (Reflo's constructor opens the PE first; the
three analyze stages and the dump are abstracted as the rest argument);
in the release build any escaping exception is caught and the process
returns EXIT_FAILURE, otherwise EXIT_SUCCESS. -/
def wmain (argc : Nat) (file : PEFile)
    (rest : PEFile → Except PEError Unit) : Nat :=
  if argc ≠ 2 then 1
  else
    match PE_open file >>= rest with
    | .ok _ => 0
    | .error _ => 1

/-- C9: a PE file whose machine type is not AMD64 makes opening the image
fail with the unsupported-architecture error and the program exit non-zero;
when the image opens and the analysis pipeline succeeds the program exits
with 0. -/
theorem claim_C9 (f : PEFile) (rest : PEFile → Except PEError Unit) :
    (f.machine ≠ IMAGE_FILE_MACHINE_AMD64 →
      PE_open f = .error .unsupportedArchitecture ∧ wmain 2 f rest ≠ 0) ∧
    (∀ pe, PE_open f = .ok pe → rest pe = .ok () → wmain 2 f rest = 0) := by
  constructor
  · intro h
    have hopen : PE_open f = .error .unsupportedArchitecture := by
      simp [PE_open, h]
    refine ⟨hopen, ?_⟩
    unfold wmain
    rw [if_neg (show ¬((2 : Nat) ≠ 2) by decide), hopen,
      show ((Except.error PEError.unsupportedArchitecture :
          Except PEError PEFile) >>= rest) =
        Except.error PEError.unsupportedArchitecture from rfl]
    decide
  · intro pe hopen hrest
    unfold wmain
    rw [if_neg (show ¬((2 : Nat) ≠ 2) by decide), hopen,
      show ((Except.ok pe : Except PEError PEFile) >>= rest) = rest pe
        from rfl,
      hrest]

/-- C9 witness: the theorem at a concrete non-AMD64 file (machine 0) and a
concrete AMD64 file with a succeeding pipeline. -/
theorem claim_C9_witness :
    ((⟨0⟩ : PEFile).machine ≠ IMAGE_FILE_MACHINE_AMD64) ∧
      (PE_open ⟨0⟩ = .error .unsupportedArchitecture ∧
        wmain 2 ⟨0⟩ (fun _ => .ok ()) ≠ 0) ∧
      PE_open ⟨34404⟩ = .ok ⟨34404⟩ ∧
      wmain 2 ⟨34404⟩ (fun _ => .ok ()) = 0 :=
  ⟨by decide, (claim_C9 ⟨0⟩ (fun _ => .ok ())).1 (by decide), rfl,
    (claim_C9 ⟨34404⟩ (fun _ => .ok ())).2 ⟨34404⟩ rfl rfl⟩

/-! ## Optimal coverage (Recontex::OptimalCoverage, recontex.cxx lines
1052-1320)

The Flo class (flo.cxx) is not among the sources; its members used here
are modelled from the specification: is_inside is carried as a predicate
field, get_jump_destination as a per-instruction Option destination (none
when the decoder cannot resolve the jump target), is_any_jump covers
unconditional and conditional jumps, is_conditional_jump excludes JMP
(section 4.5: a group of conditional jumps optionally followed by an
unconditional one). -/

/-- Instruction shape as OptimalCoverage reads it. -/
inductive Mnemonic
| jmp
| jcc
| ret
| other
deriving DecidableEq, Repr

def Mnemonic.is_any_jump : Mnemonic → Bool
| .jmp => true
| .jcc => true
| _ => false

def Mnemonic.is_conditional_jump : Mnemonic → Bool
| .jcc => true
| _ => false

/-- A decoded instruction: mnemonic class, byte length and, for jumps, the
destination Flo::get_jump_destination computes (none when unresolvable). -/
structure Instr where
  mnem : Mnemonic
  length : Nat
  jumpDest : Option Nat
deriving DecidableEq, Repr

/-- The part of a Flo that OptimalCoverage reads. -/
structure Flo where
  entry_point : Nat
  disassembly : List (Nat × Instr)
  inside : Nat → Bool

/-- OptimalCoverage::Branch::Type. -/
inductive BranchType
| Conditional
| Unconditional
| Next
deriving DecidableEq, Repr

/-- OptimalCoverage::Branch: source address, destination address (0 for
null) and type. -/
structure Branch where
  source : Nat
  branch : Nat
  type : BranchType
deriving DecidableEq, Repr

/-- OptimalCoverage::Node. -/
structure Node where
  source : Nat
  branches : List Branch
deriving DecidableEq, Repr

/-- std::map emplace: sorted insert that keeps an existing key. -/
def mapEmplace : List (Nat × Node) → Nat → Node → List (Nat × Node)
| [], k, n => [(k, n)]
| p :: rest, k, n =>
  if p.1 < k then p :: mapEmplace rest k n
  else if p.1 = k then p :: rest
  else (k, n) :: p :: rest

/-- std::map lower_bound on the sorted node list. -/
def nodesLowerBound (nodes : List (Nat × Node)) (a : Nat) :
    Option (Nat × Node) :=
  match nodes.filter (fun p => decide (a ≤ p.1)) with
  | [] => none
  | p :: _ => some p

/-- std::map find on the node list. -/
def lookupNode (nodes : List (Nat × Node)) (a : Nat) : Option Node :=
  (nodes.find? (fun p => p.1 == a)).map (fun p => p.2)

/-- The while loop of build_nodes that consumes the contiguous conditional
jumps with destinations inside the flo; carries the collected Conditional
branches and the pending Next information (address of the last conditional
consumed, and its fallthrough). Ends in the after-group handling. -/
def bnGroup (flo : Flo) :
    List (Nat × Instr) → List Branch → Option (Nat × Nat) →
    Option (List Branch × Bool × List (Nat × Instr))
| [], branches, _ => some (branches, true, [])
| (a, i) :: rest, branches, nextInfo =>
  if i.mnem.is_conditional_jump then
    match i.jumpDest with
    | none => none
    | some dst =>
      if flo.inside dst then
        bnGroup flo rest (branches ++ [⟨a, dst, .Conditional⟩])
          (some (a, a + i.length))
      else bnGroupEnd flo ((a, i) :: rest) branches nextInfo
  else bnGroupEnd flo ((a, i) :: rest) branches nextInfo
where
  /-- The after-while handling: an unconditional JMP inside contributes a
  front Unconditional branch; otherwise a recorded fallthrough contributes
  a front Next branch. The current instruction is consumed by the outer
  loop's increment. -/
  bnGroupEnd : Flo → List (Nat × Instr) → List Branch →
      Option (Nat × Nat) → Option (List Branch × Bool × List (Nat × Instr))
  | _, [], branches, _ => some (branches, true, [])
  | flo, (a, i) :: rest, branches, nextInfo =>
    if i.mnem = .jmp then
      match i.jumpDest with
      | none => none
      | some dst =>
        if flo.inside dst then
          some (⟨a, dst, .Unconditional⟩ :: branches, false, rest)
        else some (branches, false, rest)
    else
      match nextInfo with
      | some pn => some (⟨pn.1, pn.2, .Next⟩ :: branches, false, rest)
      | none => some (branches, false, rest)

/-- OptimalCoverage::build_nodes (recontex.cxx, lines 1071-1136), as a
fueled recursion over the disassembly: a jump with unresolvable destination
fails the analysis; a jump inside starts a branch group; a jump outside and
a RET become terminal nodes recorded in ends. -/
def bnGo (flo : Flo) :
    Nat → List (Nat × Instr) → List (Nat × Node) → List Nat →
    Option (List (Nat × Node) × List Nat)
| 0, _, _, _ => none
| _ + 1, [], nodes, ends => some (nodes, ends)
| fuel + 1, (a, i) :: rest, nodes, ends =>
  if i.mnem.is_any_jump then
    match i.jumpDest with
    | none => none
    | some dst =>
      if flo.inside dst then
        match bnGroup flo ((a, i) :: rest) [] none with
        | none => none
        | some (branches, reachedEnd, rest') =>
          let nodes' :=
            if branches.isEmpty then nodes
            else mapEmplace nodes a ⟨a, branches⟩
          if reachedEnd then some (nodes', ends)
          else bnGo flo fuel rest' nodes' ends
      else
        bnGo flo fuel rest (mapEmplace nodes a ⟨a, []⟩) (setInsert ends a)
  else if i.mnem = .ret then
    bnGo flo fuel rest (mapEmplace nodes a ⟨a, []⟩) (setInsert ends a)
  else bnGo flo fuel rest nodes ends

def build_nodes (flo : Flo) : Option (List (Nat × Node) × List Nat) :=
  bnGo flo (flo.disassembly.length + 1) flo.disassembly [] []

/-- OptimalCoverage::normalize_nodes: snap every non-null branch
destination to the next node at or after it. -/
def normalize_nodes (nodes : List (Nat × Node)) : List (Nat × Node) :=
  nodes.map (fun p =>
    (p.1, ⟨p.2.source, p.2.branches.map (fun b =>
      if b.branch = 0 then b
      else
        match nodesLowerBound nodes b.branch with
        | some q => ⟨b.source, q.1, b.type⟩
        | none => b)⟩))

/-- The DFS of OptimalCoverage::top_sort: accumulates the post-order list
with the most recently finished node in front (which is the reversed
top_sort vector the source indexes from rbegin). -/
def tsDfs (nodes : List (Nat × Node)) :
    Nat → Nat → List Nat × List Nat → List Nat × List Nat
| 0, _, st => st
| fuel + 1, v, st =>
  let vn :=
    match nodesLowerBound nodes v with
    | some q => (q.1, q.2.branches)
    | none => (v, ([] : List Branch))
  if vn.1 ∈ st.1 then st
  else
    let st2 := vn.2.foldl (fun acc b => tsDfs nodes fuel b.branch acc)
      (vn.1 :: st.1, st.2)
    (st2.1, vn.1 :: st2.2)

/-- OptimalCoverage::top_sort: the order map, node address to index, index
0 for the last finished (entry) node; empty when there are no nodes. -/
def top_sort (flo : Flo) (nodes : List (Nat × Node)) : List (Nat × Nat) :=
  if nodes.isEmpty then []
  else
    ((tsDfs nodes (nodes.length + 1) flo.entry_point ([], [])).2).enum.map
      (fun p => (p.2, p.1))

/-- nodes_order_.find made total. -/
def lookupOrder (order : List (Nat × Nat)) (a : Nat) : Option Nat :=
  (order.find? (fun p => p.1 == a)).map (fun p => p.2)

/-- nodes_order_ operator access with the default 0 the map subscript
inserts. -/
def lookupOrderD (order : List (Nat × Nat)) (a : Nat) : Nat :=
  match lookupOrder order a with
  | some x => x
  | none => 0

/-- OptimalCoverage::find_loops: an edge whose destination order does not
exceed its source order (lookups that the source performs with
unordered_map::at are skipped when the key is absent). -/
def find_loops (nodes : List (Nat × Node)) (order : List (Nat × Nat)) :
    List (Nat × Nat) :=
  nodes.foldl (fun acc p =>
    p.2.branches.foldl (fun acc2 b =>
      match lookupOrder order b.branch, lookupOrder order p.2.source with
      | some ob, some os =>
        if ob ≤ os then acc2 ++ [(p.2.source, b.branch)] else acc2
      | _, _ => acc2) acc) []

/-- The bounded DFS of OptimalCoverage::find_useless_edges: search for a
path from start to the edge destination avoiding the blocked edge and all
loops, bounded by the topological order of the destination. -/
def fueDfs (nodes : List (Nat × Node)) (order : List (Nat × Nat))
    (loops : List (Nat × Nat)) (blocked : Nat × Nat) (endAddr : Nat) :
    Nat → Nat → List Nat → Bool × List Nat
| 0, _, visited => (false, visited)
| fuel + 1, v, visited =>
  match lookupOrder order v with
  | none => (false, visited)
  | some ov =>
    if lookupOrderD order endAddr < ov then (false, visited)
    else
      let visited2 := setInsert visited v
      match lookupNode nodes v with
      | none => (false, visited2)
      | some node =>
        node.branches.foldl (fun st b =>
          if st.1 then st
          else
            if (node.source, b.branch) ≠ blocked ∧
                (node.source, b.branch) ∉ loops then
              if b.branch = endAddr then (true, st.2)
              else if b.branch ∈ st.2 then st
              else fueDfs nodes order loops blocked endAddr fuel b.branch
                st.2
            else st) (false, visited2)

/-- OptimalCoverage::find_useless_edges. -/
def find_useless_edges (nodes : List (Nat × Node))
    (order : List (Nat × Nat)) (loops : List (Nat × Nat)) :
    List (Nat × Nat) :=
  nodes.foldl (fun acc p =>
    if p.2.branches.isEmpty then acc
    else
      p.2.branches.foldl (fun acc2 b =>
        if (fueDfs nodes order loops (p.2.source, b.branch) b.branch
            (nodes.length + 1) p.2.source []).1 then
          acc2 ++ [(p.2.source, b.branch)]
        else acc2) acc) []

/-- One element of an optimal path: the branch source address and whether
the branch is taken. -/
structure PathElem where
  jump : Nat
  take : Bool
deriving DecidableEq, Repr

/-- The recursive lambda of OptimalCoverage::build_paths: at a terminal
node snapshot the current path; otherwise iterate the branches after the
head first and the head branch last, pushing path elements (overwriting
the last element and appending a second one in the head-taken case),
entering loop edges once per stack and never descending useless edges. -/
def bpDfs (nodes : List (Nat × Node)) (ends : List Nat)
    (loops useless : List (Nat × Nat)) :
    Nat → Nat → List (Nat × Nat) → List PathElem → List (List PathElem)
| 0, _, _, _ => []
| fuel + 1, v, visitedLoops, path =>
  if v ∈ ends ∨ (lookupNode nodes v).isNone then [path]
  else
    match lookupNode nodes v with
    | none => [path]
    | some node =>
      let its : List (Bool × Branch) :=
        (node.branches.drop 1).map (fun b => (false, b)) ++
          (match node.branches.head? with
           | some b => [(true, b)]
           | none => [])
      let step := fun (st : List PathElem × Nat × List (List PathElem))
          (ib : Bool × Branch) =>
        let path0 := st.1
        let added0 := st.2.1
        let acc0 := st.2.2
        let pa :=
          if ¬ ib.1 ∨ added0 = 0 then
            (path0 ++ [⟨ib.2.source,
              ib.2.type = .Conditional ∨ ib.2.type = .Unconditional⟩],
              added0 + 1)
          else
            let path2 := path0.dropLast ++
              (match path0.getLast? with
               | some e => [⟨e.jump, false⟩]
               | none => [])
            if ib.2.type = .Unconditional then
              (path2 ++ [⟨ib.2.source, true⟩], added0 + 1)
            else (path2, added0)
        if (node.source, ib.2.branch) ∈ loops then
          if (node.source, ib.2.branch) ∈ visitedLoops then
            (pa.1, pa.2, acc0)
          else
            let sub :=
              if (node.source, ib.2.branch) ∈ useless then []
              else bpDfs nodes ends loops useless fuel ib.2.branch
                ((node.source, ib.2.branch) :: visitedLoops) pa.1
            (pa.1, pa.2, acc0 ++ sub)
        else
          let sub :=
            if (node.source, ib.2.branch) ∈ useless then []
            else bpDfs nodes ends loops useless fuel ib.2.branch
              visitedLoops pa.1
          (pa.1, pa.2, acc0 ++ sub)
      (its.foldl step (path, 0, [])).2.2

/-- OptimalCoverage::build_paths (recontex.cxx, lines 1260-1320): no nodes
yields the single empty path; otherwise DFS from the first node at or
after the entry point. -/
def build_paths (flo : Flo) (nodes : List (Nat × Node)) (ends : List Nat)
    (loops useless : List (Nat × Nat)) : List (List PathElem) :=
  if nodes.isEmpty then [[]]
  else
    match nodesLowerBound nodes flo.entry_point with
    | some q =>
      bpDfs nodes ends loops useless
        (nodes.length + loops.length + 1) q.1 [] []
    | none => []

/-- OptimalCoverage::analyze: build nodes (failing when a jump destination
is unresolvable), normalize, topologically sort, find loops and useless
edges, build the paths. -/
def optimal_coverage_analyze (flo : Flo) :
    Option (List (List PathElem)) :=
  match build_nodes flo with
  | none => none
  | some ne =>
    let nodes := normalize_nodes ne.1
    let order := top_sort flo nodes
    let loops := find_loops nodes order
    let useless := find_useless_edges nodes order loops
    some (build_paths flo nodes ne.2 loops useless)

/-! ### Claim C7 -/

theorem mem_mapEmplace {nodes : List (Nat × Node)} {k : Nat} {n : Node}
    {q : Nat × Node} (h : q ∈ mapEmplace nodes k n) :
    q ∈ nodes ∨ q = (k, n) := by
  induction nodes with
  | nil => simpa [mapEmplace] using h
  | cons p rest ih =>
    unfold mapEmplace at h
    by_cases h1 : p.1 < k
    · rw [if_pos h1] at h
      rcases List.mem_cons.mp h with rfl | h2
      · exact Or.inl (List.mem_cons_self _ _)
      · rcases ih h2 with h3 | h3
        · exact Or.inl (List.mem_cons_of_mem _ h3)
        · exact Or.inr h3
    · rw [if_neg h1] at h
      by_cases h2 : p.1 = k
      · rw [if_pos h2] at h
        exact Or.inl h
      · rw [if_neg h2] at h
        rcases List.mem_cons.mp h with rfl | h3
        · exact Or.inr rfl
        · exact Or.inl h3

/-- Invariant carried by bnGo under the no-inside-jump hypothesis: all
nodes built so far are terminal (no branches), recorded in ends, and lie
at or after the entry point. -/
def BnInv (flo : Flo) (nodes : List (Nat × Node)) (ends : List Nat) :
    Prop :=
  ∀ q ∈ nodes, q.2.branches = [] ∧ q.1 ∈ ends ∧ flo.entry_point ≤ q.1

theorem bnInv_step {flo : Flo} {nodes : List (Nat × Node)} {ends : List Nat}
    {a : Nat} (h : BnInv flo nodes ends) (ha : flo.entry_point ≤ a) :
    BnInv flo (mapEmplace nodes a ⟨a, []⟩) (setInsert ends a) := by
  intro q hq
  rcases mem_mapEmplace hq with h1 | rfl
  · obtain ⟨hb, he, hge⟩ := h q h1
    exact ⟨hb, mem_setInsert.mpr (Or.inl he), hge⟩
  · exact ⟨rfl, mem_setInsert.mpr (Or.inr rfl), ha⟩

theorem bnGo_spec (flo : Flo) :
    ∀ (fuel : Nat) (l : List (Nat × Instr)) (nodes : List (Nat × Node))
      (ends : List Nat),
      l.length < fuel →
      (∀ p ∈ l, p.2.mnem.is_any_jump = true →
        ∃ d, p.2.jumpDest = some d ∧ flo.inside d = false) →
      (∀ p ∈ l, flo.entry_point ≤ p.1) →
      BnInv flo nodes ends →
      ∃ res, bnGo flo fuel l nodes ends = some res ∧
        BnInv flo res.1 res.2 := by
  intro fuel
  induction fuel with
  | zero =>
    intro l nodes ends hlen
    omega
  | succ fuel ih =>
    intro l nodes ends hlen hjump haddr hinv
    cases l with
    | nil => exact ⟨(nodes, ends), rfl, hinv⟩
    | cons p rest =>
      obtain ⟨a, i⟩ := p
      have hlen2 : rest.length < fuel := by
        simp only [List.length_cons] at hlen
        omega
      have hjump2 : ∀ p ∈ rest, p.2.mnem.is_any_jump = true →
          ∃ d, p.2.jumpDest = some d ∧ flo.inside d = false :=
        fun p hp => hjump p (List.mem_cons_of_mem _ hp)
      have haddr2 : ∀ p ∈ rest, flo.entry_point ≤ p.1 :=
        fun p hp => haddr p (List.mem_cons_of_mem _ hp)
      have ha : flo.entry_point ≤ a := haddr (a, i) (List.mem_cons_self _ _)
      rw [bnGo]
      by_cases hj : i.mnem.is_any_jump = true
      · obtain ⟨d, hd, hins⟩ := hjump (a, i) (List.mem_cons_self _ _) hj
        rw [if_pos hj, hd]
        dsimp only
        rw [if_neg (by simp [hins])]
        exact ih rest _ _ hlen2 hjump2 haddr2 (bnInv_step hinv ha)
      · rw [if_neg hj]
        by_cases hr : i.mnem = .ret
        · rw [if_pos hr]
          exact ih rest _ _ hlen2 hjump2 haddr2 (bnInv_step hinv ha)
        · rw [if_neg hr]
          exact ih rest _ _ hlen2 hjump2 haddr2 hinv

theorem bpDfs_terminal (nodes : List (Nat × Node)) (ends : List Nat)
    (loops useless : List (Nat × Nat)) (fuel v : Nat)
    (visited : List (Nat × Nat)) (path : List PathElem) (hv : v ∈ ends) :
    bpDfs nodes ends loops useless (fuel + 1) v visited path = [path] := by
  rw [bpDfs, if_pos (Or.inl hv)]

/-- C7: a flo in whose disassembly no jump has a destination inside the flo
(and every jump destination is resolvable, which the claim presupposes by
speaking of the produced path set) yields a path set of exactly one path,
the empty one. -/
theorem claim_C7 (flo : Flo)
    (hjump : ∀ p ∈ flo.disassembly, p.2.mnem.is_any_jump = true →
      ∃ d, p.2.jumpDest = some d ∧ flo.inside d = false)
    (haddr : ∀ p ∈ flo.disassembly, flo.entry_point ≤ p.1) :
    optimal_coverage_analyze flo = some [[]] := by
  obtain ⟨res, hres, hinv⟩ := bnGo_spec flo (flo.disassembly.length + 1)
    flo.disassembly [] [] (by omega) hjump haddr (by intro q hq; cases hq)
  unfold optimal_coverage_analyze build_nodes
  rw [hres]
  dsimp only
  congr 1
  have hinv2 : BnInv flo (normalize_nodes res.1) res.2 := by
    intro q hq
    unfold normalize_nodes at hq
    rw [List.mem_map] at hq
    obtain ⟨p, hp, rfl⟩ := hq
    obtain ⟨hb, he, hge⟩ := hinv p hp
    exact ⟨by simp [hb], he, hge⟩
  unfold build_paths
  by_cases hne : (normalize_nodes res.1).isEmpty
  · rw [if_pos hne]
  · rw [if_neg hne]
    have hfilter : (normalize_nodes res.1).filter
        (fun p => decide (flo.entry_point ≤ p.1)) = normalize_nodes res.1 :=
      List.filter_eq_self.mpr (fun p hp => by
        simpa using (hinv2 p hp).2.2)
    rcases hl : normalize_nodes res.1 with - | ⟨q, t⟩
    · rw [hl] at hne
      simp at hne
    · have hq : q ∈ normalize_nodes res.1 := by
        rw [hl]
        exact List.mem_cons_self _ _
      rw [hl] at hfilter
      have hlb : nodesLowerBound (q :: t) flo.entry_point = some q := by
        unfold nodesLowerBound
        rw [hfilter]
      rw [hlb]
      dsimp only
      exact bpDfs_terminal _ _ _ _ _ _ _ _ (hinv2 q hq).2.1

/-- C7 witness: the theorem at a concrete flo consisting of an outside jump
and a RET. -/
theorem claim_C7_witness :
    (∀ p ∈ (⟨100, [(100, ⟨.jmp, 5, some 500⟩), (105, ⟨.ret, 1, none⟩)],
        fun _ => false⟩ : Flo).disassembly,
      p.2.mnem.is_any_jump = true →
        ∃ d, p.2.jumpDest = some d ∧
          (⟨100, [(100, ⟨.jmp, 5, some 500⟩), (105, ⟨.ret, 1, none⟩)],
            fun _ => false⟩ : Flo).inside d = false) ∧
      (∀ p ∈ (⟨100, [(100, ⟨.jmp, 5, some 500⟩), (105, ⟨.ret, 1, none⟩)],
          fun _ => false⟩ : Flo).disassembly,
        (100 : Nat) ≤ p.1) ∧
      optimal_coverage_analyze
        (⟨100, [(100, ⟨.jmp, 5, some 500⟩), (105, ⟨.ret, 1, none⟩)],
          fun _ => false⟩ : Flo) = some [[]] :=
  ⟨by decide, by decide,
    claim_C7 _ (by decide) (by decide)⟩

end Rstc
